import Mathlib

/-
Verification development for the calibration core:
a shallow embedding of cal_metadata.py (CalibrationMetadata) and
analysis/trigonometric.py (the frequency-guess heuristic and the
cosinusoidal fit model), together with theorems about the embedded
definitions.  Machine floating point is modelled by exact reals.
-/

/-! ### Calibration metadata (cal_metadata.py) -/

/-- A Python scalar appearing as a key or value of the register map:
either an integer or a string.  This covers the domain the constructor
declares (Dict of Union of str and int keys to int values). -/
inductive PyVal where
  | int (n : ℤ)
  | str (s : String)
deriving DecidableEq

/-- Accumulating decimal-digit scan: succeeds exactly when every
character is a decimal digit, as the digit phase of Python int(). -/
def pyIntDigits : List Char → ℕ → Option ℕ
  | [], acc => some acc
  | c :: t, acc => if c.isDigit then pyIntDigits t (acc * 10 + (c.toNat - 48)) else none

/-- Python int(s) on a string: surrounding whitespace is stripped, an
optional sign is followed by one or more decimal digits; anything else
raises ValueError (modelled as none). -/
def pyIntOfString (s : String) : Option ℤ :=
  match s.trim.toList with
  | [] => none
  | '-' :: rest =>
    match rest with
    | [] => none
    | _ => (pyIntDigits rest 0).map (fun n => -(n : ℤ))
  | '+' :: rest =>
    match rest with
    | [] => none
    | _ => (pyIntDigits rest 0).map (fun n => (n : ℤ))
  | cs => (pyIntDigits cs 0).map (fun n => (n : ℤ))

/-- Python int(v) for v an int or a str. -/
def pyToInt : PyVal → Option ℤ
  | .int n => some n
  | .str s => pyIntOfString s

/-- Assignment d[k] = v on a Python dict modelled as an ordered
association list: an existing key keeps its position and takes the new
value, a fresh key is appended. -/
def dictInsert (m : List (ℤ × ℤ)) (k v : ℤ) : List (ℤ × ℤ) :=
  if m.any (fun p => p.1 = k) then m.map (fun p => if p.1 = k then (k, v) else p)
  else m ++ [(k, v)]

/-- The metadata record of CalibrationMetadata, after construction.
Optional fields default to absent (Python None). -/
structure CalibrationMetadata where
  name : Option String
  pulse_schedule_name : Option String
  x_values : Option (List (String × PyVal))
  series : Option PyVal
  exp_id : Option String
  qubits : Option (List ℤ)
  register_map : Option (List (ℤ × ℤ))
deriving DecidableEq

/-- The coercion loop of CalibrationMetadata.__init__: each entry of the
provided register map has its key and value passed through int(); the
first failure aborts construction (ValueError propagates, modelled as
none). -/
def coerceRegMap : List (PyVal × PyVal) → List (ℤ × ℤ) → Option (List (ℤ × ℤ))
  | [], acc => some acc
  | (k, v) :: t, acc =>
    match pyToInt k, pyToInt v with
    | some ki, some vi => coerceRegMap t (dictInsert acc ki vi)
    | _, _ => none

/-- CalibrationMetadata.__init__.  The register-map branch runs only when
the argument is truthy (a non-empty dict); for None or an empty dict the
instance attribute is left unset and reads as the class default None. -/
def mkCalibrationMetadata (name pulse_schedule_name : Option String)
    (x_values : Option (List (String × PyVal))) (series : Option PyVal)
    (exp_id : Option String) (qubits : Option (List ℤ))
    (register_map : Option (List (PyVal × PyVal))) : Option CalibrationMetadata :=
  match register_map with
  | none => some ⟨name, pulse_schedule_name, x_values, series, exp_id, qubits, none⟩
  | some entries =>
    if entries.isEmpty then
      some ⟨name, pulse_schedule_name, x_values, series, exp_id, qubits, none⟩
    else
      match coerceRegMap entries [] with
      | some m => some ⟨name, pulse_schedule_name, x_values, series, exp_id, qubits, some m⟩
      | none => none

/-- A value of the heterogeneous dict produced by to_dict. -/
inductive MetaVal where
  | mstr (s : Option String)
  | mseries (v : Option PyVal)
  | mx (x : Option (List (String × PyVal)))
  | mq (q : Option (List ℤ))
  | mrm (m : Option (List (ℤ × ℤ)))
deriving DecidableEq

/-- CalibrationMetadata.to_dict: the exported dict, an ordered list of
key-value pairs with the fixed key order of the source. -/
def to_dict (m : CalibrationMetadata) : List (String × MetaVal) :=
  [("name", .mstr m.name),
   ("series", .mseries m.series),
   ("x_values", .mx m.x_values),
   ("pulse_schedule_name", .mstr m.pulse_schedule_name),
   ("exp_id", .mstr m.exp_id),
   ("qubits", .mq m.qubits),
   ("register_map", .mrm m.register_map)]

/-! ### Frequency estimator (analysis/trigonometric.py) -/

/-- np.mean of a one-dimensional array. -/
noncomputable def npMean (l : List ℝ) : ℝ := l.sum / l.length

/-- np.max of a one-dimensional array (the empty case never arises under
the length invariant; numpy raises there). -/
noncomputable def npMax : List ℝ → ℝ
  | [] => 0
  | a :: t => t.foldl max a

/-- Bin k of np.fft.fft applied to a real list:
  X k = sum over j of x j times exp (-2 pi i j k / n). -/
noncomputable def dftCoeff (l : List ℝ) (k : ℕ) : ℂ :=
  ∑ j ∈ Finset.range l.length,
    (l.getD j 0 : ℂ) *
      Complex.exp (-(2 * (Real.pi : ℂ) * Complex.I * (j : ℂ) * (k : ℂ)) / (l.length : ℂ))

/-- Entry k of np.fft.fftfreq n d: k / (n d) for the first (n-1)/2 + 1
entries, (k - n) / (n d) for the rest. -/
noncomputable def fftfreqVal (n : ℕ) (d : ℝ) (k : ℕ) : ℝ :=
  if k ≤ (n - 1) / 2 then (k : ℝ) / (n * d) else ((k : ℝ) - n) / (n * d)

/-- Fold of np.argmax: keeps the first index attaining the running
maximum, replacing it only on a strictly larger value. -/
noncomputable def argmaxAux : List ℝ → ℕ → ℕ → ℝ → ℕ
  | [], _, best, _ => best
  | a :: t, i, best, bv =>
    if bv < a then argmaxAux t (i + 1) i a else argmaxAux t (i + 1) best bv

/-- np.argmax of a one-dimensional array (first index of the maximum;
numpy raises on an empty array, which the length invariant excludes). -/
noncomputable def argmaxList : List ℝ → ℕ
  | [] => 0
  | a :: t => argmaxAux t 1 0 a

/-- np.convolve a v with mode full: entry k is
  sum over j of a (k - j) times v j, out-of-range entries read as 0. -/
noncomputable def np_convolve_full (a v : List ℝ) : List ℝ :=
  (List.range (a.length + v.length - 1)).map (fun k =>
    ∑ j ∈ Finset.range v.length, if j ≤ k then a.getD (k - j) 0 * v.getD j 0 else 0)

/-- np.convolve a v with mode same: the centered slice of the full
convolution, of length max of the two input lengths. -/
noncomputable def np_convolve_same (a v : List ℝ) : List ℝ :=
  ((np_convolve_full a v).drop ((min a.length v.length - 1) / 2)).take (max a.length v.length)

/-- One position of the scipy relative-minimum test (comparator np.less,
mode clip): data i is strictly below data at every index i plus or minus
shift for shift from 1 to order, indices clipped into range. -/
noncomputable def boolRelMinAt (data : List ℝ) (order : ℕ) (i : ℕ) : Bool :=
  (List.range order).all (fun t =>
    decide (data.getD i 0 < data.getD (min (i + (t + 1)) (data.length - 1)) 0) &&
    decide (data.getD i 0 < data.getD (i - (t + 1)) 0))

/-- scipy.signal.argrelmin on a one-dimensional array: the ascending list
of indices passing the relative-minimum test.  scipy additionally raises
ValueError when order is below 1; that check lives at the call site in
freq_guess. -/
noncomputable def relMinIndices (data : List ℝ) (order : ℕ) : List ℕ :=
  (List.range data.length).filter (fun i => boolRelMinAt data order i)

/-- The spectral part of the guess in _freq_guess: magnitude of the
fftfreq entry selected by the argmax of the magnitudes of the first half
of the spectrum of the mean-subtracted signal. -/
noncomputable def spectral_guess (xvals yvals : List ℝ) : ℝ :=
  let n := xvals.length
  let d := xvals.getD 1 0 - xvals.getD 0 0
  let centered := yvals.map (fun v => v - npMean yvals)
  let fft_data := (List.range centered.length).map (fun k => dftCoeff centered k)
  let mags := (fft_data.take (n / 2)).map (fun z => Complex.abs z)
  |fftfreqVal n d (argmaxList mags)|

/-- _freq_guess.  A raised exception is modelled as none: indexing
xvals at position 1 needs at least two samples, and scipy argrelmin
raises ValueError when its order (len(xvals) divided by 4, truncated)
is below 1. -/
noncomputable def freq_guess (xvals yvals : List ℝ) : Option ℝ :=
  if xvals.length < 2 then none
  else
    let f0 := spectral_guess xvals yvals
    if f0 = 0 then
      let smoothed := np_convolve_same yvals [0.5, 0.5]
      let order := xvals.length / 4
      if order < 1 then none
      else
        let peaks := relMinIndices smoothed order
        if peaks.length = 0 ∨ 4 < peaks.length then some 0
        else some (1 / (2 * xvals.getD peaks.headI 0))
    else some f0

/-! ### Cosinusoidal model (analysis/trigonometric.py) -/

/-- np.linspace start stop num with endpoint: num evenly spaced values
with step (stop - start) / (num - 1). -/
noncomputable def np_linspace (start stop : ℝ) (num : ℕ) : List ℝ :=
  (List.range num).map (fun i : ℕ => start + (i : ℝ) * ((stop - start) / ((num : ℝ) - 1)))

/-- CosinusoidalFit.initial_guess: ten candidate parameter vectors
(amplitude, frequency, phase, offset) with the phase swept over
np.linspace (-pi) pi 10.  The generator consumes _freq_guess, so a raise
there (modelled none) propagates. -/
noncomputable def initial_guess (xvals yvals : List ℝ) :
    Option (List (ℝ × ℝ × ℝ × ℝ)) :=
  (freq_guess xvals yvals).map (fun fg =>
    let y_mean := npMean yvals
    let a0 := npMax (yvals.map (fun v => |v|)) - |y_mean|
    let f0 := max 0 fg
    (np_linspace (-Real.pi) Real.pi 10).map (fun phi => (a0, f0, phi, y_mean)))

/-- CosinusoidalFit.fit_function, elementwise over the sample array:
  a cos (2 pi f x + phi) + b. -/
noncomputable def fit_function (xvals : List ℝ) (a f phi b : ℝ) : List ℝ :=
  xvals.map (fun x => a * Real.cos (2 * Real.pi * f * x + phi) + b)

/-- CosinusoidalFit.fit_boundary: the fixed per-parameter bounds, with
np.inf modelled as the top and bottom of the extended reals. -/
noncomputable def fit_boundary (xvals yvals : List ℝ) : List (EReal × EReal) :=
  [(⊥, ⊤),
   (((0 : ℝ) : EReal), ⊤),
   (((-Real.pi : ℝ) : EReal), ((Real.pi : ℝ) : EReal)),
   (⊥, ⊤)]

/-! ### Spec-side definitions for the refinement claim on the fallback -/

/-- Modelled from the spec: the 2-tap moving average with weights one
half and one half and same-length output, written directly by its index
formula (the entry before the first reads as zero). -/
noncomputable def spec_smooth (l : List ℝ) : List ℝ :=
  (List.range l.length).map (fun i =>
    0.5 * l.getD i 0 + 0.5 * (if i = 0 then 0 else l.getD (i - 1) 0))

/-- Modelled from the spec: local minima located with a window of w
samples on each side, a point qualifying when it is strictly below every
other point of its window (window truncated at the array ends, the first
and last points never qualifying). -/
noncomputable def specLocalMinima (s : List ℝ) (w : ℕ) : List ℕ :=
  (List.range s.length).filter (fun i =>
    decide (1 ≤ i) && decide (i + 1 < s.length) &&
    decide (∀ j, j < s.length → (i - w ≤ j ∧ j ≤ i + w ∧ j ≠ i) → s.getD i 0 < s.getD j 0))

/-- Modelled from the spec: the time-domain fallback value, zero when
zero or more than four local minima are found, otherwise one over twice
the x value of the first minimum. -/
noncomputable def spec_fallback (x y : List ℝ) : ℝ :=
  if (specLocalMinima (spec_smooth y) (x.length / 4)).length = 0 ∨
      4 < (specLocalMinima (spec_smooth y) (x.length / 4)).length then 0
  else 1 / (2 * x.getD ((specLocalMinima (spec_smooth y) (x.length / 4)).headI) 0)

/-! ### Concrete inputs used by counterexamples and witnesses -/

/-- The concrete string-keyed register map of the C5 witness. -/
def regmapEntries : List (PyVal × PyVal) :=
  [(.str "0", .str "3"), (.str "1", .str "5")]

/-- Sample locations 0, 1, 2, 3: the shortest valid input on which the
fallback path of the estimator does not raise. -/
noncomputable def xs4 : List ℝ := [0, 1, 2, 3]

/-- A constant signal on four samples. -/
noncomputable def ys4 : List ℝ := [1, 1, 1, 1]

/-- Five strictly increasing sample locations with a negative head. -/
noncomputable def xs5 : List ℝ := [-3, -2, -1, 0, 1]

/-- Five strictly increasing sample locations starting at zero. -/
noncomputable def xs5pos : List ℝ := [0, 1, 2, 3, 4]

/-- Five samples of the pure harmonic cos (4 pi j / 5), written in closed
form over the square root of five.  Its mean is zero and its spectrum is
supported on the two bins outside the first half, so the spectral guess
is exactly zero while the smoothed signal still has one strict local
minimum. -/
noncomputable def ys5 : List ℝ :=
  [1, -(1 + Real.sqrt 5) / 4, (Real.sqrt 5 - 1) / 4,
   (Real.sqrt 5 - 1) / 4, -(1 + Real.sqrt 5) / 4]

/-! ### Helper lemmas on the metadata model -/

lemma coerceRegMap_isSome (l : List (PyVal × PyVal)) (acc : List (ℤ × ℤ)) :
    (coerceRegMap l acc).isSome ↔
      ∀ kv ∈ l, (pyToInt kv.1).isSome ∧ (pyToInt kv.2).isSome := by
  induction l generalizing acc with
  | nil => simp [coerceRegMap]
  | cons kv t ih =>
    obtain ⟨k, v⟩ := kv
    cases hk : pyToInt k with
    | none => simp [coerceRegMap, hk]
    | some ki =>
      cases hv : pyToInt v with
      | none => simp [coerceRegMap, hk, hv]
      | some vi => simp [coerceRegMap, hk, hv, ih]

lemma coerceRegMap_of_nodup (l : List (PyVal × PyVal)) (acc : List (ℤ × ℤ))
    (hsome : ∀ kv ∈ l, (pyToInt kv.1).isSome ∧ (pyToInt kv.2).isSome)
    (hnd : (l.map (fun kv => pyToInt kv.1)).Nodup)
    (hfresh : ∀ kv ∈ l, ∀ p ∈ acc, pyToInt kv.1 ≠ some p.1) :
    coerceRegMap l acc =
      some (acc ++ l.map (fun kv => ((pyToInt kv.1).getD 0, (pyToInt kv.2).getD 0))) := by
  induction l generalizing acc with
  | nil => simp [coerceRegMap]
  | cons kv t ih =>
    obtain ⟨k, v⟩ := kv
    obtain ⟨hks, hvs⟩ := hsome (k, v) (List.mem_cons_self _ _)
    obtain ⟨ki, hk⟩ := Option.isSome_iff_exists.1 hks
    obtain ⟨vi, hv⟩ := Option.isSome_iff_exists.1 hvs
    have hins : dictInsert acc ki vi = acc ++ [(ki, vi)] := by
      have hnomem : acc.any (fun p => decide (p.1 = ki)) = false := by
        rw [List.any_eq_false]
        intro p hp
        have := hfresh (k, v) (List.mem_cons_self _ _) p hp
        simp only [hk] at this
        simp only [decide_eq_true_eq]
        exact fun hpk => this (by rw [hpk])
      simp only [dictInsert]
      rw [if_neg]
      simp [hnomem]
    rw [List.map_cons, List.nodup_cons] at hnd
    have step : coerceRegMap ((k, v) :: t) acc = coerceRegMap t (acc ++ [(ki, vi)]) := by
      simp [coerceRegMap, hk, hv, hins]
    have hfresh2 : ∀ kv ∈ t, ∀ p ∈ acc ++ [(ki, vi)], pyToInt kv.1 ≠ some p.1 := by
      intro kv hkv p hp
      rcases List.mem_append.1 hp with hacc | hnew
      · exact hfresh kv (List.mem_cons_of_mem _ hkv) p hacc
      · have hpk : p = (ki, vi) := by simpa using hnew
        subst hpk
        intro hbad
        exact hnd.1 (by
          rw [← hk] at hbad
          exact List.mem_map.2 ⟨kv, hkv, hbad⟩)
    rw [step, ih (acc ++ [(ki, vi)])
      (fun kv hkv => hsome kv (List.mem_cons_of_mem _ hkv)) hnd.2 hfresh2]
    simp [hk, hv, List.append_assoc]

/-- C5: constructing a CalibrationMetadata record with a non-empty
register map succeeds exactly when every key and value coerces to an
integer, and on success the stored and exported register map is the
integer-coerced mapping (stated for maps whose coerced keys are
pairwise distinct, which covers string-keyed input such as the mapping
of the string 0 to the string 3 and the string 1 to the string 5). -/
theorem register_map_coercion (nm p xv s e q) (entries : List (PyVal × PyVal))
    (hne : entries ≠ []) :
    ((mkCalibrationMetadata nm p xv s e q (some entries)).isSome ↔
      ∀ kv ∈ entries, (pyToInt kv.1).isSome ∧ (pyToInt kv.2).isSome) ∧
    ((entries.map (fun kv => pyToInt kv.1)).Nodup →
      ∀ m, mkCalibrationMetadata nm p xv s e q (some entries) = some m →
        m.register_map =
            some (entries.map (fun kv => ((pyToInt kv.1).getD 0, (pyToInt kv.2).getD 0))) ∧
          (to_dict m).lookup "register_map" =
            some (.mrm (some (entries.map
              (fun kv => ((pyToInt kv.1).getD 0, (pyToInt kv.2).getD 0)))))) := by
  have hemp : entries.isEmpty = false := by
    cases entries with
    | nil => exact absurd rfl hne
    | cons a t => rfl
  constructor
  · rw [← coerceRegMap_isSome entries []]
    simp only [mkCalibrationMetadata, hemp, Bool.false_eq_true, if_false]
    cases h : coerceRegMap entries [] with
    | none => simp [h]
    | some m => simp [h]
  · intro hnd m hm
    simp only [mkCalibrationMetadata, hemp, Bool.false_eq_true, if_false] at hm
    cases h : coerceRegMap entries [] with
    | none => rw [h] at hm; exact absurd hm (by simp)
    | some rm =>
      rw [h] at hm
      have hsome : ∀ kv ∈ entries, (pyToInt kv.1).isSome ∧ (pyToInt kv.2).isSome := by
        rw [← coerceRegMap_isSome entries []]
        simp [h]
      have hch := coerceRegMap_of_nodup entries [] hsome hnd (by simp)
      rw [h] at hch
      obtain rfl : rm = entries.map (fun kv => ((pyToInt kv.1).getD 0, (pyToInt kv.2).getD 0)) := by
        simpa using hch
      obtain rfl :
          (⟨nm, p, xv, s, e, q,
            some (entries.map (fun kv => ((pyToInt kv.1).getD 0, (pyToInt kv.2).getD 0)))⟩ :
            CalibrationMetadata) = m := by
        simpa using hm
      exact ⟨rfl, rfl⟩

/-- Witness for C5 at the string-keyed mapping of 0 to 3 and 1 to 5. -/
theorem register_map_coercion_witness :
    (regmapEntries ≠ []) ∧
    (((mkCalibrationMetadata none none none none none none (some regmapEntries)).isSome ↔
      ∀ kv ∈ regmapEntries, (pyToInt kv.1).isSome ∧ (pyToInt kv.2).isSome) ∧
    ((regmapEntries.map (fun kv => pyToInt kv.1)).Nodup →
      ∀ m, mkCalibrationMetadata none none none none none none (some regmapEntries) = some m →
        m.register_map =
            some (regmapEntries.map (fun kv => ((pyToInt kv.1).getD 0, (pyToInt kv.2).getD 0))) ∧
          (to_dict m).lookup "register_map" =
            some (.mrm (some (regmapEntries.map
              (fun kv => ((pyToInt kv.1).getD 0, (pyToInt kv.2).getD 0))))))) :=
  ⟨by decide, register_map_coercion none none none none none none regmapEntries (by decide)⟩

/-- C6: to_dict returns the mapping with exactly the fixed key order
name, series, x_values, pulse_schedule_name, exp_id, qubits,
register_map, with the values exactly as stored, and calling it twice
on the same record yields equal mappings. -/
theorem to_dict_fixed_shape (m : CalibrationMetadata) :
    (to_dict m).map Prod.fst =
      ["name", "series", "x_values", "pulse_schedule_name", "exp_id", "qubits",
       "register_map"] ∧
    (to_dict m).lookup "name" = some (.mstr m.name) ∧
    (to_dict m).lookup "series" = some (.mseries m.series) ∧
    (to_dict m).lookup "x_values" = some (.mx m.x_values) ∧
    (to_dict m).lookup "pulse_schedule_name" = some (.mstr m.pulse_schedule_name) ∧
    (to_dict m).lookup "exp_id" = some (.mstr m.exp_id) ∧
    (to_dict m).lookup "qubits" = some (.mq m.qubits) ∧
    (to_dict m).lookup "register_map" = some (.mrm m.register_map) ∧
    to_dict m = to_dict m :=
  ⟨rfl, rfl, rfl, rfl, rfl, rfl, rfl, rfl, rfl⟩

/-- C9: constructing a record with an empty register map (and likewise
with none) skips the coercion branch, leaving register_map absent, and
the export reports it as absent. -/
theorem regmap_empty_absent (nm p : Option String) (xv : Option (List (String × PyVal)))
    (s : Option PyVal) (e : Option String) (q : Option (List ℤ)) :
    mkCalibrationMetadata nm p xv s e q (some []) = some ⟨nm, p, xv, s, e, q, none⟩ ∧
    mkCalibrationMetadata nm p xv s e q none = some ⟨nm, p, xv, s, e, q, none⟩ ∧
    ∀ m, mkCalibrationMetadata nm p xv s e q (some []) = some m →
      m.register_map = none ∧
        (to_dict m).lookup "register_map" = some (.mrm none) := by
  refine ⟨rfl, rfl, ?_⟩
  intro m hm
  obtain rfl : (⟨nm, p, xv, s, e, q, none⟩ : CalibrationMetadata) = m := by
    simpa [mkCalibrationMetadata] using hm
  exact ⟨rfl, rfl⟩

/-- C7: fit_boundary returns the same fixed bounds, minus and plus
infinity for the amplitude and the offset, zero to infinity for the
frequency, minus pi to pi for the phase, independent of its inputs. -/
theorem fit_boundary_constant (x y x2 y2 : List ℝ) :
    fit_boundary x y = fit_boundary x2 y2 ∧
    fit_boundary x y =
      [(⊥, ⊤),
       (((0 : ℝ) : EReal), ⊤),
       (((-Real.pi : ℝ) : EReal), ((Real.pi : ℝ) : EReal)),
       (⊥, ⊤)] :=
  ⟨rfl, rfl⟩

/-- C8: the model of fit_function is two-pi periodic in the phase
parameter: shifting the phase by two pi leaves every sample unchanged. -/
theorem fit_function_phase_periodic (xs : List ℝ) (a f phi b : ℝ) :
    fit_function xs a f (phi + 2 * Real.pi) b = fit_function xs a f phi b := by
  unfold fit_function
  refine List.map_congr_left ?_
  intro x _
  have h : 2 * Real.pi * f * x + (phi + 2 * Real.pi) =
      2 * Real.pi * f * x + phi + 2 * Real.pi := by ring
  rw [h, Real.cos_add_two_pi]

/-! ### Helper lemmas on the frequency estimator -/

lemma spectral_guess_def (x y : List ℝ) :
    spectral_guess x y =
      |fftfreqVal x.length (x.getD 1 0 - x.getD 0 0)
        (argmaxList ((((List.range ((y.map (fun v => v - npMean y)).length)).map
          (fun k => dftCoeff (y.map (fun v => v - npMean y)) k)).take (x.length / 2)).map
          (fun z => Complex.abs z)))| := rfl

lemma freq_guess_eq_cases (x y : List ℝ) (h2 : 2 ≤ x.length) :
    freq_guess x y =
      if spectral_guess x y = 0 then
        (if x.length / 4 < 1 then none
         else
           (if (relMinIndices (np_convolve_same y [0.5, 0.5]) (x.length / 4)).length = 0 ∨
               4 < (relMinIndices (np_convolve_same y [0.5, 0.5]) (x.length / 4)).length
            then some 0
            else some (1 / (2 * x.getD ((relMinIndices (np_convolve_same y [0.5, 0.5])
              (x.length / 4)).headI) 0))))
      else some (spectral_guess x y) := by
  simp only [freq_guess]
  rw [if_neg (by omega)]

lemma fftfreqVal_zero (n : ℕ) (d : ℝ) : fftfreqVal n d 0 = 0 := by
  simp [fftfreqVal]

lemma spectral_guess_nonneg (x y : List ℝ) : 0 ≤ spectral_guess x y := by
  rw [spectral_guess_def]
  exact abs_nonneg _

lemma argmaxList_singleton (a : ℝ) : argmaxList [a] = 0 := rfl

lemma take_one_map_range {α : Type} (f : ℕ → α) (m : ℕ) (hm : 1 ≤ m) :
    ((List.range m).map f).take 1 = [f 0] := by
  obtain ⟨k, rfl⟩ : ∃ k, m = k + 1 := ⟨m - 1, by omega⟩
  rw [List.range_succ_eq_map]
  simp

lemma spectral_guess_small (x y : List ℝ) (hn : x.length / 2 = 1) (hy : y ≠ []) :
    spectral_guess x y = 0 := by
  rw [spectral_guess_def, hn,
    take_one_map_range _ _ (by rw [List.length_map]; exact List.length_pos.mpr hy)]
  rw [List.map_singleton, argmaxList_singleton, fftfreqVal_zero, abs_zero]

lemma freq_guess_small (x y : List ℝ) (h2 : 2 ≤ x.length) (h3 : x.length ≤ 3)
    (hy : y ≠ []) : freq_guess x y = none := by
  rw [freq_guess_eq_cases x y h2, if_pos (spectral_guess_small x y (by omega) hy),
    if_pos (by omega)]

lemma freq_guess_isSome (x y : List ℝ) (h4 : 4 ≤ x.length) :
    (freq_guess x y).isSome = true := by
  rw [freq_guess_eq_cases x y (by omega)]
  by_cases h0 : spectral_guess x y = 0
  · rw [if_pos h0, if_neg (by omega)]
    split_ifs <;> simp
  · rw [if_neg h0]
    simp

/-! ### C1: the estimator can raise on two or three samples -/

/-- Counterexample to C1 as stated: on the valid input with x equal to
the list 0, 1 (strictly increasing, constant step) and y of the same
length, the spectral half has a single bin, the guess is zero, and the
fallback raises ValueError inside scipy argrelmin (order 0), modelled as
none, instead of returning a real number. -/
theorem freq_guess_raises_on_two_samples :
    List.Sorted (· < ·) ([0, 1] : List ℝ) ∧
    freq_guess ([0, 1] : List ℝ) ([0, 1] : List ℝ) = none := by
  constructor
  · norm_num [List.sorted_cons]
  · exact freq_guess_small _ _ (by norm_num) (by norm_num) (by simp)

/-- C1 (corrected): on valid inputs with at least four samples the
estimator never raises, and every degenerate case (zero spectral guess
together with zero or more than four local minima) resolves to the value
zero; with two or three samples the fallback raises instead. -/
theorem freq_guess_never_raises (x y : List ℝ) (hy : y.length = x.length)
    (h4 : 4 ≤ x.length) :
    (freq_guess x y).isSome = true ∧
    (spectral_guess x y = 0 →
      ((relMinIndices (np_convolve_same y [0.5, 0.5]) (x.length / 4)).length = 0 ∨
        4 < (relMinIndices (np_convolve_same y [0.5, 0.5]) (x.length / 4)).length) →
      freq_guess x y = some 0) := by
  refine ⟨freq_guess_isSome x y h4, ?_⟩
  intro h0 hc
  rw [freq_guess_eq_cases x y (by omega), if_pos h0, if_neg (by omega), if_pos hc]

/-- Witness for C1 at four equally spaced samples of a constant signal. -/
theorem freq_guess_never_raises_witness :
    ys4.length = xs4.length ∧ 4 ≤ xs4.length ∧
    ((freq_guess xs4 ys4).isSome = true ∧
     (spectral_guess xs4 ys4 = 0 →
       ((relMinIndices (np_convolve_same ys4 [0.5, 0.5]) (xs4.length / 4)).length = 0 ∨
         4 < (relMinIndices (np_convolve_same ys4 [0.5, 0.5]) (xs4.length / 4)).length) →
       freq_guess xs4 ys4 = some 0)) :=
  ⟨by norm_num [xs4, ys4], by norm_num [xs4],
   freq_guess_never_raises xs4 ys4 (by norm_num [xs4, ys4]) (by norm_num [xs4])⟩

/-! ### C4: the ten initial-guess vectors -/

lemma np_linspace_length (a b : ℝ) (m : ℕ) : (np_linspace a b m).length = m := by
  simp only [np_linspace, List.length_map, List.length_range]

lemma np_linspace_getElem (a b : ℝ) (m k : ℕ) (hk : k < m) :
    (np_linspace a b m)[k]? = some (a + k * ((b - a) / ((m : ℝ) - 1))) := by
  simp only [np_linspace, List.getElem?_map, List.getElem?_range hk]
  rfl

/-- Counterexample to C4 as stated: on the valid two-sample input the
frequency estimator raises before the first vector is yielded (modelled
as none), so initial_guess does not produce ten vectors. -/
theorem initial_guess_raises_on_two_samples :
    initial_guess ([0, 1] : List ℝ) ([1, 2] : List ℝ) = none := by
  have h := freq_guess_small ([0, 1] : List ℝ) ([1, 2] : List ℝ)
    (by norm_num) (by norm_num) (by simp)
  simp [initial_guess, h]

/-- C4 (corrected): on valid inputs with at least four samples,
initial_guess yields exactly ten vectors; every vector carries amplitude
max of the absolute y values minus the absolute mean, frequency
max 0 (estimate), and offset mean of y; the phases of the first and the
last vector are minus pi and pi, and consecutive phases differ by the
constant step two pi over nine; with two or three samples the generator
raises instead. -/
theorem initial_guess_shape (x y : List ℝ) (h4 : 4 ≤ x.length) :
    ∃ gs, initial_guess x y = some gs ∧ gs.length = 10 ∧
      (∀ g ∈ gs,
        g.1 = npMax (y.map (fun v => |v|)) - |npMean y| ∧
        (∃ r, freq_guess x y = some r ∧ g.2.1 = max 0 r) ∧
        g.2.2.2 = npMean y) ∧
      (∀ g, gs[0]? = some g → g.2.2.1 = -Real.pi) ∧
      (∀ g, gs[9]? = some g → g.2.2.1 = Real.pi) ∧
      (∀ k g g2, gs[k]? = some g → gs[k + 1]? = some g2 →
        g2.2.2.1 - g.2.2.1 = 2 * Real.pi / 9) := by
  obtain ⟨r, hr⟩ := Option.isSome_iff_exists.1 (freq_guess_isSome x y h4)
  refine ⟨(np_linspace (-Real.pi) Real.pi 10).map
    (fun phi => (npMax (y.map (fun v => |v|)) - |npMean y|, max 0 r, phi, npMean y)),
    ?_, ?_, ?_, ?_, ?_, ?_⟩
  · simp [initial_guess, hr]
  · simp [np_linspace_length]
  · intro g hg
    obtain ⟨phi, hphi, rfl⟩ := List.mem_map.1 hg
    exact ⟨rfl, ⟨r, hr, rfl⟩, rfl⟩
  · intro g hg
    rw [List.getElem?_map, np_linspace_getElem _ _ _ _ (by omega)] at hg
    obtain rfl : _ = g := Option.some.inj hg
    dsimp only
    push_cast
    ring
  · intro g hg
    rw [List.getElem?_map, np_linspace_getElem _ _ _ _ (by omega)] at hg
    obtain rfl : _ = g := Option.some.inj hg
    dsimp only
    push_cast
    ring
  · intro k g g2 hg hg2
    have hk : k + 1 < 10 := by
      by_contra hk
      rw [List.getElem?_map] at hg2
      rw [List.getElem?_eq_none] at hg2
      · simp at hg2
      · rw [np_linspace_length]; omega
    rw [List.getElem?_map, np_linspace_getElem _ _ _ _ (by omega)] at hg
    rw [List.getElem?_map, np_linspace_getElem _ _ _ _ (by omega)] at hg2
    obtain rfl : _ = g := Option.some.inj hg
    obtain rfl : _ = g2 := Option.some.inj hg2
    dsimp only
    push_cast
    ring

/-- Witness for C4 at four equally spaced samples of a constant signal. -/
theorem initial_guess_shape_witness :
    4 ≤ xs4.length ∧
    (∃ gs, initial_guess xs4 ys4 = some gs ∧ gs.length = 10 ∧
      (∀ g ∈ gs,
        g.1 = npMax (ys4.map (fun v => |v|)) - |npMean ys4| ∧
        (∃ r, freq_guess xs4 ys4 = some r ∧ g.2.1 = max 0 r) ∧
        g.2.2.2 = npMean ys4) ∧
      (∀ g, gs[0]? = some g → g.2.2.1 = -Real.pi) ∧
      (∀ g, gs[9]? = some g → g.2.2.1 = Real.pi) ∧
      (∀ k g g2, gs[k]? = some g → gs[k + 1]? = some g2 →
        g2.2.2.1 - g.2.2.1 = 2 * Real.pi / 9)) :=
  ⟨by norm_num [xs4], initial_guess_shape xs4 ys4 (by norm_num [xs4])⟩

/-! ### The scipy relative-minimum test as a window condition -/

lemma boolRelMinAt_iff (data : List ℝ) (w i : ℕ) (hw : 1 ≤ w) (hi : i < data.length) :
    boolRelMinAt data w i = true ↔
      (1 ≤ i ∧ i + 1 < data.length ∧
       ∀ j, j < data.length → (i - w ≤ j ∧ j ≤ i + w ∧ j ≠ i) →
         data.getD i 0 < data.getD j 0) := by
  simp only [boolRelMinAt, List.all_eq_true, List.mem_range, Bool.and_eq_true,
    decide_eq_true_eq]
  constructor
  · intro h
    have h1 : 1 ≤ i := by
      by_contra hi0
      obtain rfl : i = 0 := by omega
      have := (h 0 (by omega)).2
      simp at this
    have h2 : i + 1 < data.length := by
      by_contra hi1
      have hmin : min (i + (0 + 1)) (data.length - 1) = i := by omega
      have := (h 0 (by omega)).1
      rw [hmin] at this
      exact absurd this (lt_irrefl _)
    refine ⟨h1, h2, ?_⟩
    intro j hj hcond
    obtain ⟨hjl, hjr, hne⟩ := hcond
    rcases Nat.lt_or_ge j i with hlt | hge
    · have ht : i - j - 1 < w := by omega
      have := (h (i - j - 1) ht).2
      have heq : i - (i - j - 1 + 1) = j := by omega
      rw [heq] at this
      exact this
    · have hgt : i < j := by omega
      have ht : j - i - 1 < w := by omega
      have := (h (j - i - 1) ht).1
      have heq : min (i + (j - i - 1 + 1)) (data.length - 1) = j := by omega
      rw [heq] at this
      exact this
  · intro h t ht
    obtain ⟨h1, h2, hwin⟩ := h
    constructor
    · exact hwin (min (i + (t + 1)) (data.length - 1)) (by omega)
        ⟨by omega, by omega, by omega⟩
    · exact hwin (i - (t + 1)) (by omega) ⟨by omega, by omega, by omega⟩

lemma relMinIndices_eq_spec (data : List ℝ) (w : ℕ) (hw : 1 ≤ w) :
    relMinIndices data w = specLocalMinima data w := by
  unfold relMinIndices specLocalMinima
  apply List.filter_congr
  intro i hi
  rw [List.mem_range] at hi
  apply Bool.coe_iff_coe.mp
  rw [boolRelMinAt_iff data w i hw hi]
  simp only [Bool.and_eq_true, decide_eq_true_eq]
  constructor
  · rintro ⟨h1, h2, hwin⟩
    exact ⟨⟨h1, h2⟩, fun j hj hc => hwin j hj hc⟩
  · rintro ⟨⟨h1, h2⟩, hwin⟩
    exact ⟨h1, h2, fun j hj hc => hwin j hj hc⟩

lemma mem_relMinIndices (data : List ℝ) (w i : ℕ) (hw : 1 ≤ w)
    (h : i ∈ relMinIndices data w) :
    1 ≤ i ∧ i + 1 < data.length := by
  unfold relMinIndices at h
  rw [List.mem_filter, List.mem_range] at h
  have := (boolRelMinAt_iff data w i hw h.1).1 h.2
  exact ⟨this.1, this.2.1⟩

/-! ### The numpy convolution with the half-half kernel -/

lemma np_convolve_same_half (a : List ℝ) (ha : 2 ≤ a.length) :
    np_convolve_same a [0.5, 0.5] = spec_smooth a := by
  unfold np_convolve_same np_convolve_full spec_smooth
  simp only [List.length_cons, List.length_nil, Nat.zero_add]
  have h1 : min a.length 2 = 2 := by omega
  have h2 : max a.length 2 = a.length := by omega
  have h3 : a.length + 2 - 1 = a.length + 1 := by omega
  rw [h1, h2, h3]
  norm_num
  rw [← List.map_take, List.take_range, min_eq_left (by omega)]
  apply List.map_congr_left
  intro i hi
  rw [List.mem_range] at hi
  rw [Finset.sum_range_succ, Finset.sum_range_succ, Finset.sum_range_zero]
  rcases Nat.eq_zero_or_pos i with rfl | hpos
  · rw [if_pos (by omega), if_neg (by omega), if_pos rfl]
    simp [List.getD]
    ring
  · rw [if_pos (by omega), if_pos (by omega), if_neg (by omega)]
    simp [List.getD]
    ring

lemma np_convolve_same_half_length (a : List ℝ) (ha : 2 ≤ a.length) :
    (np_convolve_same a [0.5, 0.5]).length = a.length := by
  rw [np_convolve_same_half a ha]
  simp [spec_smooth]

/-! ### C2: the fallback follows the specified steps -/

/-- Counterexample to C2 as stated: on the valid three-sample input the
spectral guess is exactly zero, yet the function does not return any of
the fallback values: scipy argrelmin raises on order 0 (modelled none). -/
theorem freq_guess_fallback_raises_three :
    spectral_guess ([0, 1, 2] : List ℝ) ([1, 0, 1] : List ℝ) = 0 ∧
    freq_guess ([0, 1, 2] : List ℝ) ([1, 0, 1] : List ℝ) = none := by
  constructor
  · exact spectral_guess_small _ _ (by norm_num) (by simp)
  · exact freq_guess_small _ _ (by norm_num) (by norm_num) (by simp)

/-- C2 (corrected): when the spectral guess is exactly zero and the input
has at least four samples, the function returns exactly the fallback
value described by the spec: smooth y with the half-half moving average,
locate windowed strict local minima with a window of one quarter of the
sample count on each side, return zero on zero or more than four minima
and one over twice the x location of the first minimum otherwise; with
two or three samples the fallback raises instead of returning. -/
theorem freq_guess_fallback_spec (x y : List ℝ) (h4 : 4 ≤ x.length)
    (hy : y.length = x.length) (hf0 : spectral_guess x y = 0) :
    freq_guess x y = some (spec_fallback x y) := by
  have hw : 1 ≤ x.length / 4 := by omega
  have hy2 : 2 ≤ y.length := by omega
  rw [freq_guess_eq_cases x y (by omega), if_pos hf0, if_neg (by omega),
    np_convolve_same_half y hy2, relMinIndices_eq_spec _ _ hw]
  unfold spec_fallback
  split_ifs <;> rfl

/-! ### Evaluating the estimator on a constant four-sample signal -/

lemma take_two_map_range {α : Type} (f : ℕ → α) (m : ℕ) (hm : 2 ≤ m) :
    ((List.range m).map f).take 2 = [f 0, f 1] := by
  obtain ⟨k, rfl⟩ : ∃ k, m = k + 2 := ⟨m - 2, by omega⟩
  rw [List.range_succ_eq_map, List.range_succ_eq_map]
  simp

lemma argmaxList_pair_zero : argmaxList [(0 : ℝ), 0] = 0 := by
  simp [argmaxList, argmaxAux]

lemma npMean_ys4 : npMean ys4 = 1 := by
  norm_num [npMean, ys4]

lemma centered_ys4 : ys4.map (fun v => v - npMean ys4) = [0, 0, 0, 0] := by
  rw [npMean_ys4]
  norm_num [ys4]

lemma dftCoeff_zeros (k : ℕ) : dftCoeff ([0, 0, 0, 0] : List ℝ) k = 0 := by
  unfold dftCoeff
  apply Finset.sum_eq_zero
  intro j hj
  have hz : (([0, 0, 0, 0] : List ℝ)).getD j 0 = 0 := by
    rcases j with _ | _ | _ | _ | j <;> simp [List.getD]
  rw [hz]
  simp

lemma spectral_guess_ys4 (x : List ℝ) (hx : x.length = 4) :
    spectral_guess x ys4 = 0 := by
  rw [spectral_guess_def, centered_ys4, hx]
  have hlen : (([0, 0, 0, 0] : List ℝ)).length = 4 := by norm_num
  rw [hlen, take_two_map_range _ _ (by omega)]
  simp only [dftCoeff_zeros, List.map_cons, List.map_nil, map_zero]
  rw [argmaxList_pair_zero, fftfreqVal_zero, abs_zero]

lemma spec_smooth_ys4 : spec_smooth ys4 = [0.5, 1, 1, 1] := by
  simp only [spec_smooth, ys4, List.length_cons, List.length_nil]
  norm_num [List.range_succ, List.getD]

lemma relMin_smooth_ys4 : relMinIndices ([0.5, 1, 1, 1] : List ℝ) 1 = [] := by
  unfold relMinIndices
  rw [List.filter_eq_nil_iff]
  intro i hi
  have hlen : (([0.5, 1, 1, 1] : List ℝ)).length = 4 := by norm_num
  rw [hlen] at hi
  rw [List.mem_range] at hi
  intro hb
  have h := (boolRelMinAt_iff _ 1 i le_rfl (by rw [hlen]; omega)).1 hb
  obtain ⟨h1, h2, hwin⟩ := h
  rw [hlen] at h2
  interval_cases i
  · have := hwin 2 (by rw [hlen]; omega) ⟨by omega, by omega, by omega⟩
    norm_num [List.getD] at this
  · have := hwin 3 (by rw [hlen]; omega) ⟨by omega, by omega, by omega⟩
    norm_num [List.getD] at this
  · omega

lemma freq_guess_ys4 : freq_guess xs4 ys4 = some 0 := by
  have hx4 : xs4.length = 4 := by norm_num [xs4]
  have hy4 : ys4.length = 4 := by norm_num [ys4]
  rw [freq_guess_eq_cases _ _ (by omega), if_pos (spectral_guess_ys4 xs4 hx4), hx4,
    if_neg (by omega), np_convolve_same_half ys4 (by omega), spec_smooth_ys4,
    relMin_smooth_ys4]
  norm_num

/-- Witness for C2 at four equally spaced samples of a constant signal:
the spectral guess is zero and the returned value is the specified
fallback value. -/
theorem freq_guess_fallback_spec_witness :
    4 ≤ xs4.length ∧ ys4.length = xs4.length ∧ spectral_guess xs4 ys4 = 0 ∧
    freq_guess xs4 ys4 = some (spec_fallback xs4 ys4) :=
  ⟨by norm_num [xs4], by norm_num [xs4, ys4],
   spectral_guess_ys4 xs4 (by norm_num [xs4]),
   freq_guess_fallback_spec xs4 ys4 (by norm_num [xs4]) (by norm_num [xs4, ys4])
     (spectral_guess_ys4 xs4 (by norm_num [xs4]))⟩

/-! ### C3: sign of the returned value -/

/-- C3 (corrected): on valid inputs whose sample locations start at a
nonnegative value, every value the estimator returns is nonnegative; the
spectral path is nonnegative unconditionally, but the fallback division
returns one over twice a sample location, which is negative when the
first detected minimum sits at a negative x. -/
theorem freq_guess_nonneg (x y : List ℝ) (r : ℝ)
    (hmono : List.Sorted (· < ·) x) (hx0 : 0 ≤ x.getD 0 0)
    (hy : y.length = x.length) (h2 : 2 ≤ x.length)
    (hr : freq_guess x y = some r) : 0 ≤ r := by
  rw [freq_guess_eq_cases x y h2] at hr
  by_cases h0 : spectral_guess x y = 0
  · rw [if_pos h0] at hr
    by_cases ho : x.length / 4 < 1
    · rw [if_pos ho] at hr
      exact absurd hr (by simp)
    · rw [if_neg ho] at hr
      by_cases hc : (relMinIndices (np_convolve_same y [0.5, 0.5]) (x.length / 4)).length = 0 ∨
          4 < (relMinIndices (np_convolve_same y [0.5, 0.5]) (x.length / 4)).length
      · rw [if_pos hc] at hr
        obtain rfl : (0 : ℝ) = r := Option.some.inj hr
        exact le_refl 0
      · rw [if_neg hc] at hr
        obtain rfl : _ = r := Option.some.inj hr
        rw [one_div_nonneg]
        cases hp : relMinIndices (np_convolve_same y [0.5, 0.5]) (x.length / 4) with
        | nil => exact absurd (Or.inl (by rw [hp]; rfl)) hc
        | cons i rest =>
          rw [List.headI_cons]
          have hmem : i ∈ relMinIndices (np_convolve_same y [0.5, 0.5]) (x.length / 4) := by
            rw [hp]
            exact List.mem_cons_self _ _
          have hb := mem_relMinIndices _ _ _ (by omega) hmem
          have hlen : (np_convolve_same y [0.5, 0.5]).length = y.length :=
            np_convolve_same_half_length y (by omega)
          rw [hlen, hy] at hb
          have hi : i < x.length := by omega
          have hle : x.getD 0 0 ≤ x.getD i 0 := by
            rcases Nat.eq_zero_or_pos i with rfl | hpos
            · exact le_refl _
            · rw [List.getD_eq_getElem x 0 (by omega), List.getD_eq_getElem x 0 hi]
              exact le_of_lt (List.pairwise_iff_getElem.mp hmono 0 i (by omega) hi hpos)
          linarith
  · rw [if_neg h0] at hr
    obtain rfl : spectral_guess x y = r := Option.some.inj hr
    exact spectral_guess_nonneg x y

/-- Witness for C3 at four equally spaced samples of a constant signal,
where the estimator returns zero. -/
theorem freq_guess_nonneg_witness :
    List.Sorted (· < ·) xs4 ∧ 0 ≤ xs4.getD 0 0 ∧ ys4.length = xs4.length ∧
    2 ≤ xs4.length ∧ freq_guess xs4 ys4 = some 0 ∧ (0 : ℝ) ≤ 0 :=
  ⟨by norm_num [xs4, List.sorted_cons], by norm_num [xs4], by norm_num [xs4, ys4],
   by norm_num [xs4], freq_guess_ys4,
   freq_guess_nonneg xs4 ys4 0 (by norm_num [xs4, List.sorted_cons]) (by norm_num [xs4])
     (by norm_num [xs4, ys4]) (by norm_num [xs4]) freq_guess_ys4⟩

/-! ### Evaluating the estimator on the five-sample harmonic ys5 -/

lemma ys5_length : ys5.length = 5 := by norm_num [ys5]

lemma dft_ys5_zero : dftCoeff ys5 0 = 0 := by
  unfold dftCoeff
  rw [ys5_length]
  rw [Finset.sum_range_succ, Finset.sum_range_succ, Finset.sum_range_succ,
    Finset.sum_range_succ, Finset.sum_range_succ, Finset.sum_range_zero]
  norm_num [ys5, List.getD]
  ring

lemma dft_ys5_one : dftCoeff ys5 1 = 0 := by
  have hs2 : Real.sqrt 5 ^ 2 = 5 := Real.sq_sqrt (by norm_num)
  unfold dftCoeff
  rw [ys5_length]
  rw [Finset.sum_range_succ, Finset.sum_range_succ, Finset.sum_range_succ,
    Finset.sum_range_succ, Finset.sum_range_succ, Finset.sum_range_zero]
  set ζ : ℂ := Complex.exp (-(2 * (Real.pi : ℂ) * Complex.I) / 5) with hζ
  have hterm : ∀ j : ℕ,
      Complex.exp (-(2 * (Real.pi : ℂ) * Complex.I * (j : ℂ) * ((1 : ℕ) : ℂ)) /
        ((5 : ℕ) : ℂ)) = ζ ^ j := by
    intro j
    rw [hζ, ← Complex.exp_nat_mul]
    congr 1
    push_cast
    ring
  rw [hterm 0, hterm 1, hterm 2, hterm 3, hterm 4]
  have hz5 : ζ ^ 5 = 1 := by
    rw [hζ, ← Complex.exp_nat_mul]
    rw [show ((5 : ℕ) : ℂ) * (-(2 * (Real.pi : ℂ) * Complex.I) / 5) =
      -(2 * (Real.pi : ℂ) * Complex.I) by push_cast; ring]
    rw [Complex.exp_neg, Complex.exp_two_pi_mul_I, inv_one]
  have hform : ζ = Complex.exp (((-(2 * Real.pi / 5) : ℝ) : ℂ) * Complex.I) := by
    rw [hζ]
    congr 1
    push_cast
    ring
  have hz1 : ζ ≠ 1 := by
    intro h
    have him : ζ.im = 0 := by rw [h]; rfl
    rw [hform, Complex.exp_ofReal_mul_I_im, Real.sin_neg] at him
    have hsin : 0 < Real.sin (2 * Real.pi / 5) :=
      Real.sin_pos_of_pos_of_lt_pi (by positivity) (by linarith [Real.pi_pos])
    linarith
  have hsum : 1 + ζ + ζ ^ 2 + ζ ^ 3 + ζ ^ 4 = 0 := by
    have hfac : (ζ - 1) * (1 + ζ + ζ ^ 2 + ζ ^ 3 + ζ ^ 4) = ζ ^ 5 - 1 := by ring
    rw [hz5, sub_self] at hfac
    rcases mul_eq_zero.1 hfac with h | h
    · exact absurd (sub_eq_zero.1 h) hz1
    · exact h
  have hinv : ζ ^ 4 = Complex.exp (((2 * Real.pi / 5 : ℝ) : ℂ) * Complex.I) := by
    have h2 : ζ ^ 4 = ζ⁻¹ :=
      eq_inv_of_mul_eq_one_left (by rw [← hz5]; ring)
    rw [h2, hform, ← Complex.exp_neg]
    congr 1
    push_cast
    ring
  have hu : ζ + ζ ^ 4 = ((2 * Real.cos (2 * Real.pi / 5) : ℝ) : ℂ) := by
    rw [hinv, hform, Complex.exp_mul_I, Complex.exp_mul_I]
    push_cast
    rw [Complex.cos_neg, Complex.sin_neg]
    ring
  have hcpos : 0 < Real.cos (2 * Real.pi / 5) := by
    apply Real.cos_pos_of_mem_Ioo
    constructor
    · have := Real.pi_pos
      linarith
    · have := Real.pi_pos
      linarith
  have hquad : (2 * Real.cos (2 * Real.pi / 5)) ^ 2 + 2 * Real.cos (2 * Real.pi / 5) - 1
      = 0 := by
    have h8 : ζ ^ 8 = ζ ^ 3 := by
      rw [show (8 : ℕ) = 5 + 3 from rfl, pow_add, hz5, one_mul]
    have hv : ζ ^ 2 + ζ ^ 3 = (ζ + ζ ^ 4) ^ 2 - 2 := by
      have hexp : (ζ + ζ ^ 4) ^ 2 = ζ ^ 2 + 2 * ζ ^ 5 + ζ ^ 8 := by ring
      rw [hz5, h8] at hexp
      rw [hexp]
      ring
    have hcall : (1 : ℂ) + (ζ + ζ ^ 4) + ((ζ + ζ ^ 4) ^ 2 - 2) = 0 := by
      rw [← hv]
      linear_combination hsum
    rw [hu] at hcall
    push_cast at hcall
    have hre : (((2 * Real.cos (2 * Real.pi / 5)) ^ 2 +
        2 * Real.cos (2 * Real.pi / 5) - 1 : ℝ) : ℂ) = 0 := by
      push_cast
      linear_combination hcall
    exact_mod_cast hre
  have hcval : 2 * Real.cos (2 * Real.pi / 5) = (Real.sqrt 5 - 1) / 2 := by
    have hs0 : 0 ≤ Real.sqrt 5 := Real.sqrt_nonneg 5
    have hfac : (2 * Real.cos (2 * Real.pi / 5) - (Real.sqrt 5 - 1) / 2) *
        (2 * Real.cos (2 * Real.pi / 5) + (Real.sqrt 5 + 1) / 2) =
        (2 * Real.cos (2 * Real.pi / 5)) ^ 2 + 2 * Real.cos (2 * Real.pi / 5) - 1 := by
      linear_combination (-(1 : ℝ) / 4) * hs2
    have hzero : (2 * Real.cos (2 * Real.pi / 5) - (Real.sqrt 5 - 1) / 2) *
        (2 * Real.cos (2 * Real.pi / 5) + (Real.sqrt 5 + 1) / 2) = 0 := by
      rw [hfac, hquad]
    rcases mul_eq_zero.1 hzero with h | h
    · linarith [sub_eq_zero.1 h]
    · exfalso
      nlinarith
  have hu2 : ζ + ζ ^ 4 = (((Real.sqrt 5 - 1) / 2 : ℝ) : ℂ) := by
    rw [hu]
    exact_mod_cast congrArg (fun t : ℝ => (t : ℂ)) hcval
  have hs2C : ((Real.sqrt 5 : ℂ)) ^ 2 = 5 := by exact_mod_cast hs2
  have hg0 : ys5.getD 0 0 = 1 := by norm_num [ys5, List.getD]
  have hg1 : ys5.getD 1 0 = -(1 + Real.sqrt 5) / 4 := by norm_num [ys5, List.getD]
  have hg2 : ys5.getD 2 0 = (Real.sqrt 5 - 1) / 4 := by norm_num [ys5, List.getD]
  have hg3 : ys5.getD 3 0 = (Real.sqrt 5 - 1) / 4 := by norm_num [ys5, List.getD]
  have hg4 : ys5.getD 4 0 = -(1 + Real.sqrt 5) / 4 := by norm_num [ys5, List.getD]
  rw [hg0, hg1, hg2, hg3, hg4]
  push_cast at hu2 ⊢
  linear_combination (((Real.sqrt 5 : ℂ) - 1) / 4) * hsum +
    (-(Real.sqrt 5 : ℂ) / 2) * hu2 + (-(1 : ℂ) / 4) * hs2C

lemma spectral_guess_ys5 (x : List ℝ) (hx : x.length = 5) :
    spectral_guess x ys5 = 0 := by
  have hsum0 : ys5.sum = 0 := by
    simp [ys5]
    ring
  have hmean : npMean ys5 = 0 := by simp [npMean, hsum0]
  have hcent : ys5.map (fun v => v - npMean ys5) = ys5 := by
    rw [hmean]
    simp
  rw [spectral_guess_def, hcent, hx, ys5_length, take_two_map_range _ _ (by omega)]
  simp only [List.map_cons, List.map_nil, dft_ys5_zero, dft_ys5_one, map_zero]
  rw [argmaxList_pair_zero, fftfreqVal_zero, abs_zero]

lemma smooth_ys5_length : (spec_smooth ys5).length = 5 := by
  simp [spec_smooth, ys5_length]

lemma smooth_ys5_getD (i : ℕ) (hi : i < 5) :
    (spec_smooth ys5).getD i 0 =
      0.5 * ys5.getD i 0 + 0.5 * (if i = 0 then 0 else ys5.getD (i - 1) 0) := by
  rw [List.getD_eq_getElem _ 0 (by rw [smooth_ys5_length]; omega)]
  simp only [spec_smooth, List.getElem_map, List.getElem_range]

lemma relMin_smooth_ys5 : relMinIndices (spec_smooth ys5) 1 = [2] := by
  have hs2 : Real.sqrt 5 ^ 2 = 5 := Real.sq_sqrt (by norm_num)
  have hs0 : 0 ≤ Real.sqrt 5 := Real.sqrt_nonneg 5
  have hslb : 2 < Real.sqrt 5 := by nlinarith
  have hsub : Real.sqrt 5 < 3 := by nlinarith
  have hg0 : ys5.getD 0 0 = 1 := by norm_num [ys5, List.getD]
  have hg1 : ys5.getD 1 0 = -(1 + Real.sqrt 5) / 4 := by norm_num [ys5, List.getD]
  have hg2 : ys5.getD 2 0 = (Real.sqrt 5 - 1) / 4 := by norm_num [ys5, List.getD]
  have hg3 : ys5.getD 3 0 = (Real.sqrt 5 - 1) / 4 := by norm_num [ys5, List.getD]
  have hg4 : ys5.getD 4 0 = -(1 + Real.sqrt 5) / 4 := by norm_num [ys5, List.getD]
  have hd0 : (spec_smooth ys5).getD 0 0 = 0.5 := by
    rw [smooth_ys5_getD 0 (by omega), if_pos rfl, hg0]
    norm_num
  have hd1 : (spec_smooth ys5).getD 1 0 = 0.5 * (-(1 + Real.sqrt 5) / 4) + 0.5 := by
    rw [smooth_ys5_getD 1 (by omega), if_neg (by omega),
      show (1 : ℕ) - 1 = 0 from rfl, hg1, hg0]
    norm_num
  have hd2 : (spec_smooth ys5).getD 2 0 =
      0.5 * ((Real.sqrt 5 - 1) / 4) + 0.5 * (-(1 + Real.sqrt 5) / 4) := by
    rw [smooth_ys5_getD 2 (by omega), if_neg (by omega),
      show (2 : ℕ) - 1 = 1 from rfl, hg2, hg1]
  have hd3 : (spec_smooth ys5).getD 3 0 = (Real.sqrt 5 - 1) / 4 := by
    rw [smooth_ys5_getD 3 (by omega), if_neg (by omega),
      show (3 : ℕ) - 1 = 2 from rfl, hg3, hg2]
    ring
  have hd4 : (spec_smooth ys5).getD 4 0 =
      0.5 * (-(1 + Real.sqrt 5) / 4) + 0.5 * ((Real.sqrt 5 - 1) / 4) := by
    rw [smooth_ys5_getD 4 (by omega), if_neg (by omega),
      show (4 : ℕ) - 1 = 3 from rfl, hg4, hg3]
  have hb0 : boolRelMinAt (spec_smooth ys5) 1 0 = false := by
    rw [Bool.eq_false_iff]
    intro hb
    have h := (boolRelMinAt_iff _ 1 0 le_rfl (by rw [smooth_ys5_length]; omega)).1 hb
    omega
  have hb1 : boolRelMinAt (spec_smooth ys5) 1 1 = false := by
    rw [Bool.eq_false_iff]
    intro hb
    obtain ⟨-, -, hwin⟩ :=
      (boolRelMinAt_iff _ 1 1 le_rfl (by rw [smooth_ys5_length]; omega)).1 hb
    have := hwin 2 (by rw [smooth_ys5_length]; omega) ⟨by omega, by omega, by omega⟩
    rw [hd1, hd2] at this
    nlinarith
  have hb2 : boolRelMinAt (spec_smooth ys5) 1 2 = true := by
    rw [boolRelMinAt_iff _ 1 2 le_rfl (by rw [smooth_ys5_length]; omega)]
    refine ⟨by omega, by rw [smooth_ys5_length]; omega, ?_⟩
    intro j hj hcond
    rw [smooth_ys5_length] at hj
    obtain ⟨hc1, hc2, hc3⟩ := hcond
    interval_cases j
    · rw [hd2, hd1]
      nlinarith
    · omega
    · rw [hd2, hd3]
      nlinarith
  have hb3 : boolRelMinAt (spec_smooth ys5) 1 3 = false := by
    rw [Bool.eq_false_iff]
    intro hb
    obtain ⟨-, -, hwin⟩ :=
      (boolRelMinAt_iff _ 1 3 le_rfl (by rw [smooth_ys5_length]; omega)).1 hb
    have := hwin 2 (by rw [smooth_ys5_length]; omega) ⟨by omega, by omega, by omega⟩
    rw [hd3, hd2] at this
    nlinarith
  have hb4 : boolRelMinAt (spec_smooth ys5) 1 4 = false := by
    rw [Bool.eq_false_iff]
    intro hb
    have h := (boolRelMinAt_iff _ 1 4 le_rfl (by rw [smooth_ys5_length]; omega)).1 hb
    rw [smooth_ys5_length] at h
    omega
  unfold relMinIndices
  rw [smooth_ys5_length, show List.range 5 = [0, 1, 2, 3, 4] from rfl]
  simp [List.filter, hb0, hb1, hb2, hb3, hb4]

lemma freq_guess_ys5 (x : List ℝ) (hx5 : x.length = 5) :
    freq_guess x ys5 = some (1 / (2 * x.getD 2 0)) := by
  rw [freq_guess_eq_cases _ _ (by omega), if_pos (spectral_guess_ys5 x hx5), hx5,
    if_neg (by norm_num), np_convolve_same_half ys5 (by rw [ys5_length]; omega),
    show (5 / 4 : ℕ) = 1 from rfl, relMin_smooth_ys5]
  norm_num

/-- Counterexample to C3 as stated: on the valid input with strictly
increasing, equally spaced x starting at minus three and the harmonic
signal ys5, the spectral guess is zero, the fallback finds its first
minimum at index two where x is minus one, and the function returns the
negative value minus one half. -/
theorem freq_guess_negative_value :
    List.Sorted (· < ·) xs5 ∧ ys5.length = xs5.length ∧
    freq_guess xs5 ys5 = some (-(1 / 2)) ∧ (-(1 / 2) : ℝ) < 0 := by
  refine ⟨by norm_num [xs5, List.sorted_cons], ?_, ?_, by norm_num⟩
  · rw [ys5_length]
    norm_num [xs5]
  · rw [freq_guess_ys5 xs5 (by norm_num [xs5])]
    norm_num [xs5, List.getD]

/-! ### C10: the first detected minimum never sits at the first sample -/

/-- C10: whenever the scipy minima search used by the fallback detects
minima (with the order the fallback passes, at least one for inputs of
at least four samples), the first detected index is at least one, so for
sample locations that start at zero and increase strictly the divisor
two times x at that index is positive, and the fallback division is well
defined. -/
theorem fallback_first_minimum_positive (x y : List ℝ) (h4 : 4 ≤ x.length)
    (hy : y.length = x.length) (hx0 : x.getD 0 0 = 0)
    (hmono : List.Sorted (· < ·) x) (i : ℕ) (rest : List ℕ)
    (hpk : relMinIndices (np_convolve_same y [0.5, 0.5]) (x.length / 4) = i :: rest) :
    1 ≤ i ∧ 0 < x.getD i 0 ∧ 2 * x.getD i 0 ≠ 0 := by
  have hmem : i ∈ relMinIndices (np_convolve_same y [0.5, 0.5]) (x.length / 4) := by
    rw [hpk]
    exact List.mem_cons_self _ _
  have hb := mem_relMinIndices _ _ _ (by omega) hmem
  have hlen : (np_convolve_same y [0.5, 0.5]).length = y.length :=
    np_convolve_same_half_length y (by omega)
  rw [hlen, hy] at hb
  have hi : i < x.length := by omega
  have hpos : 0 < x.getD i 0 := by
    have hlt := List.pairwise_iff_getElem.mp hmono 0 i (by omega) hi (by omega)
    rw [List.getD_eq_getElem x 0 (by omega : 0 < x.length)] at hx0
    rw [List.getD_eq_getElem x 0 hi, ← hx0]
    exact hlt
  exact ⟨hb.1, hpos, by linarith⟩

/-- Witness for C10 at the harmonic signal ys5 over the sample locations
zero to four: the minima list is exactly the singleton two, and x at
index two equals two, a positive divisor. -/
theorem fallback_first_minimum_positive_witness :
    4 ≤ xs5pos.length ∧ ys5.length = xs5pos.length ∧ xs5pos.getD 0 0 = 0 ∧
    List.Sorted (· < ·) xs5pos ∧
    relMinIndices (np_convolve_same ys5 [0.5, 0.5]) (xs5pos.length / 4) = [2] ∧
    (1 ≤ 2 ∧ 0 < xs5pos.getD 2 0 ∧ 2 * xs5pos.getD 2 0 ≠ 0) := by
  have hx5 : xs5pos.length = 5 := by norm_num [xs5pos]
  have hpk : relMinIndices (np_convolve_same ys5 [0.5, 0.5]) (xs5pos.length / 4) = [2] := by
    rw [hx5, np_convolve_same_half ys5 (by rw [ys5_length]; omega),
      show (5 / 4 : ℕ) = 1 from rfl, relMin_smooth_ys5]
  refine ⟨by omega, by rw [ys5_length]; omega, by norm_num [xs5pos], ?_, hpk, ?_⟩
  · norm_num [xs5pos, List.sorted_cons]
  · exact fallback_first_minimum_positive xs5pos ys5 (by omega)
      (by rw [ys5_length]; omega) (by norm_num [xs5pos])
      (by norm_num [xs5pos, List.sorted_cons]) 2 [] hpk
